import Mathlib

/-!
A verification development for the `codesession` Discord/opencode relay bot.

The Go program is shallowly embedded: structs become Lean structures, the
message-part readiness gate and dispatch of the event listener (`main.go`),
the session registry (`GetOrCreateSession` and friends), the JSON
(de)serialization of session records (`types.go` struct tags), the commit
flow (`handleCommitCommand`), the Discord message chunker
(`SendDiscordMessage`) and the worktree removal guard (`RemoveWorktree`)
become pure Lean functions.  External effects (the remote opencode agent,
git subprocesses, Discord sends) are modelled by explicit environments or
by recording the performed actions in the result.

Strings processed character-wise (chunking, newline collapsing, status
continuation) are modelled as `List Char`; Go indexes bytes, but all the
relevant boundaries are the one-byte character `\n`, so character lists are
a faithful model for the properties below.
-/

namespace CodeSession

/-! ## Event payload model (`opencode-event-types.go` / `types.go`) -/

/-- `TimeRange` from `opencode-event-types.go`: a start time and an optional
end time (`End *int64`). -/
structure TimeRange where
  start : Int
  endTime : Option Int
deriving DecidableEq, Repr

/-- `ToolState` from `opencode-event-types.go`.  The generic
`Input`/`Metadata` maps are irrelevant to every property below and are
omitted. -/
structure ToolState where
  status : String
  output : String
  title : String
  time : Option TimeRange
deriving DecidableEq, Repr

/-- `MessagePart` from `opencode-event-types.go`.  The `Tokens`/`Cost`
bookkeeping of step-finish parts is irrelevant to every property below and
is omitted. -/
structure MessagePart where
  id : String
  messageID : String
  sessionID : String
  type : String
  text : String
  tool : String
  callID : String
  state : Option ToolState
  time : Option TimeRange
deriving DecidableEq, Repr

def PartTypeText : String := "text"
def PartTypeReasoning : String := "reasoning"
def PartTypeStepStart : String := "step-start"
def PartTypeStepFinish : String := "step-finish"
def PartTypeTool : String := "tool"

def ToolStatusPending : String := "pending"
def ToolStatusRunning : String := "running"
def ToolStatusCompleted : String := "completed"

/-! ## Readiness gate and dispatch of the event listener (`main.go`) -/

/-- The `shouldSendToDiscord` decision of `OpencodeEventsListener`
(`main.go` lines 119-130): a tool part is ready when its nested tool state
is completed and that state's own time range has a non-nil end; any other
part is ready when its own top-level time range has a non-nil end. -/
def shouldSendToDiscord (part : MessagePart) : Bool :=
  if part.type = PartTypeTool then
    match part.state with
    | some st =>
      decide (st.status = ToolStatusCompleted) &&
        (match st.time with
          | some t => t.endTime.isSome
          | none => false)
    | none => false
  else
    match part.time with
    | some t => t.endTime.isSome
    | none => false

/-- One visible chat update emitted by the listener: either a tool/thinking
status fragment (routed to `updateToolStatus`) or a text response (routed
to `updateTextResponse`). -/
inductive ChatUpdate where
  | toolStatus (content : String)
  | textResponse (content : String)
deriving DecidableEq, Repr

/-- Modelled from the spec: `removeExcessiveNewLine` as used by the
listener in `main.go` is defined in a repository file absent from the
sources here (only its caller `main.go` and its tests
`cmd/discord-bot/utils_test.go` are present); per the spec it collapses
every run of two or more consecutive newlines to a single newline: a
newline directly followed by another newline drops the former. -/
def removeExcessiveNewLine : List Char → List Char
  | [] => []
  | '\n' :: '\n' :: t => removeExcessiveNewLine ('\n' :: t)
  | '\n' :: c :: t => '\n' :: removeExcessiveNewLine (c :: t)
  | [c] => [c]
  | c :: t => c :: removeExcessiveNewLine t
termination_by l => l.length
decreasing_by all_goals simp

/-- String wrapper for `removeExcessiveNewLine`. -/
def removeExcessiveNewLineStr (s : String) : String :=
  ⟨removeExcessiveNewLine s.data⟩

/-- Whether the text contains two consecutive newlines (a run of length at
least two). -/
def hasDoubleNL : List Char → Bool
  | [] => false
  | '\n' :: '\n' :: _ => true
  | _ :: t => hasDoubleNL t

/-- The visible chat updates produced by `OpencodeEventsListener` for one
message-part-updated event (`main.go` lines 116-156): the readiness gate
followed by the per-type dispatch.  Each call to `updateToolStatus` or
`updateTextResponse` is one chat update. -/
def partChatUpdates (part : MessagePart) : List ChatUpdate :=
  if ¬ shouldSendToDiscord part then []
  else if part.type = PartTypeTool then
    match part.state with
    | some st =>
      if part.tool ≠ "" ∧ st.status = ToolStatusCompleted then
        [ChatUpdate.toolStatus ("|>> tool: " ++ part.tool)]
      else []
    | none => []
  else if part.type = PartTypeReasoning then
    if part.text ≠ "" then
      [ChatUpdate.toolStatus ("|>> thinking: " ++ part.text)]
    else []
  else if part.type = PartTypeText then
    if part.text ≠ "" then
      [ChatUpdate.textResponse ("Response:\n" ++ removeExcessiveNewLineStr part.text)]
    else []
  else []

/-! ## Session records (`types.go`) and their JSON representation -/

/-- `Model` from `config.go`. -/
structure Model where
  providerID : String
  modelID : String
deriving DecidableEq, Repr

/-- `CommitRecord` from `types.go`.  `time.Time` is modelled as an integer
timestamp. -/
structure CommitRecord where
  hash : String
  summary : String
  timestamp : Int
  status : String
deriving DecidableEq, Repr

/-- `SessionData` from `types.go`: the eight persisted fields followed by
the eight runtime fields tagged `json:"-"`.  The `*opencode.Session`
pointer is modelled by the optional id it carries. -/
structure SessionData where
  threadID : String
  sessionID : String
  model : Model
  worktreePath : String
  repositoryPath : String
  repositoryName : String
  createdAt : Int
  commits : List CommitRecord
  session : Option String
  active : Bool
  isStreaming : Bool
  lastStatusMessageID : String
  statusMessageContent : String
  toolStatusHistory : String
  currentResponse : String
  userID : String
deriving DecidableEq, Repr

/-- JSON values, for modelling `encoding/json` marshalling. -/
inductive JValue where
  | jnull
  | jstr (s : String)
  | jint (n : Int)
  | jarr (elems : List JValue)
  | jobj (fields : List (String × JValue))

/-- First-match lookup in an association list (Go JSON objects produced by
`json.Marshal` have unique keys). -/
def lookupA {α : Type} : List (String × α) → String → Option α
  | [], _ => none
  | (k, v) :: rest, key => if k = key then some v else lookupA rest key

/-- Read a string member, defaulting to the Go zero value. -/
def getStr (fields : List (String × JValue)) (key : String) : String :=
  match lookupA fields key with
  | some (JValue.jstr s) => s
  | _ => ""

/-- Read an integer member, defaulting to the Go zero value. -/
def getInt (fields : List (String × JValue)) (key : String) : Int :=
  match lookupA fields key with
  | some (JValue.jint n) => n
  | _ => 0

/-- Read an array member, defaulting to the Go zero value (nil slice). -/
def getArr (fields : List (String × JValue)) (key : String) : List JValue :=
  match lookupA fields key with
  | some (JValue.jarr xs) => xs
  | _ => []

/-- Read an object member, defaulting to the empty object. -/
def getObj (fields : List (String × JValue)) (key : String) : List (String × JValue) :=
  match lookupA fields key with
  | some (JValue.jobj fs) => fs
  | _ => []

/-- `json.Marshal` of a `CommitRecord`, following the struct tags in
`types.go`. -/
def marshalCommitRecord (c : CommitRecord) : JValue :=
  JValue.jobj
    [("hash", JValue.jstr c.hash),
     ("summary", JValue.jstr c.summary),
     ("timestamp", JValue.jint c.timestamp),
     ("status", JValue.jstr c.status)]

/-- `json.Unmarshal` into a zero-valued `CommitRecord`. -/
def unmarshalCommitRecord (j : JValue) : CommitRecord :=
  match j with
  | JValue.jobj fs =>
    { hash := getStr fs ("hash")
      summary := getStr fs ("summary")
      timestamp := getInt fs ("timestamp")
      status := getStr fs ("status") }
  | _ => { hash := "", summary := "", timestamp := 0, status := "" }

/-- `json.Marshal` of a `Model`, following the struct tags in `config.go`.
The toml tags double as JSON field names for the nested model object. -/
def marshalModel (m : Model) : JValue :=
  JValue.jobj
    [("provider_id", JValue.jstr m.providerID),
     ("model_id", JValue.jstr m.modelID)]

/-- `json.Unmarshal` into a zero-valued `Model`. -/
def unmarshalModel (j : JValue) : Model :=
  match j with
  | JValue.jobj fs => { providerID := getStr fs ("provider_id"), modelID := getStr fs ("model_id") }
  | _ => { providerID := "", modelID := "" }

/-- `json.Marshal` of a `SessionData` (`saveSessionData`): only the eight
tagged fields are emitted, every field tagged `json:"-"` is skipped. -/
def marshalSessionData (d : SessionData) : JValue :=
  JValue.jobj
    [("thread_id", JValue.jstr d.threadID),
     ("session_id", JValue.jstr d.sessionID),
     ("model", marshalModel d.model),
     ("worktree_path", JValue.jstr d.worktreePath),
     ("repository_path", JValue.jstr d.repositoryPath),
     ("repository_name", JValue.jstr d.repositoryName),
     ("created_at", JValue.jint d.createdAt),
     ("commits", JValue.jarr (d.commits.map marshalCommitRecord))]

/-- `json.Unmarshal` into a zero-valued `SessionData` (`lazyLoadSession`):
the tagged fields are read from the object, every `json:"-"` field keeps
its Go zero value. -/
def unmarshalSessionData (j : JValue) : SessionData :=
  match j with
  | JValue.jobj fs =>
    { threadID := getStr fs ("thread_id")
      sessionID := getStr fs ("session_id")
      model := unmarshalModel (JValue.jobj (getObj fs ("model")))
      worktreePath := getStr fs ("worktree_path")
      repositoryPath := getStr fs ("repository_path")
      repositoryName := getStr fs ("repository_name")
      createdAt := getInt fs ("created_at")
      commits := (getArr fs ("commits")).map unmarshalCommitRecord
      session := none
      active := false
      isStreaming := false
      lastStatusMessageID := ""
      statusMessageContent := ""
      toolStatusHistory := ""
      currentResponse := ""
      userID := "" }
  | _ =>
    { threadID := "", sessionID := "", model := { providerID := "", modelID := "" }
      worktreePath := "", repositoryPath := "", repositoryName := ""
      createdAt := 0, commits := [], session := none, active := false
      isStreaming := false, lastStatusMessageID := "", statusMessageContent := ""
      toolStatusHistory := "", currentResponse := "", userID := "" }

/-! ## Session registry (`GetOrCreateSession` and friends, unnamed
part_007) -/

/-- The process state seen by the registry: the in-memory cache, the
`.sessions` directory (thread id to file content), a counter generating
fresh remote session ids, the number of `client.Session.New` calls
performed, and the clock.  The remote create call is modelled as always
succeeding; on transport failure the Go code returns nil without
registering anything, and the idempotence contract concerns the
successful path. -/
structure Registry where
  sessionCache : List (String × SessionData)
  sessionFiles : List (String × JValue)
  nextSessionNum : Nat
  sessionCreateCalls : Nat
  now : Int

/-- `lazyLoadSession` (part_007 lines 16-63): cache hit first; otherwise
read and parse the session file, synthesize a session handle from the
stored id, insert inactive into the cache.  File contents are `JValue`s
written by `saveSessionData`, so parsing always succeeds; a missing file
yields `none`. -/
def lazyLoadSession (threadID : String) (st : Registry) : Option SessionData × Registry :=
  match lookupA st.sessionCache threadID with
  | some d => (some d, st)
  | none =>
    match lookupA st.sessionFiles threadID with
    | none => (none, st)
    | some j =>
      let d0 := unmarshalSessionData j
      let d := { d0 with session := some d0.sessionID, active := false }
      (some d, { st with sessionCache := (threadID, d) :: st.sessionCache })

/-- `saveSessionData` (part_007 lines 66-81): marshal and write the file
keyed by thread id. -/
def saveSessionData (d : SessionData) (st : Registry) : Registry :=
  { st with sessionFiles := (d.threadID, marshalSessionData d) :: st.sessionFiles }

/-- `GetOrCreateSession` (part_007 lines 84-143).  Returns the session
record (whose `session` handle is what the Go function returns).  When a
record is cached or persisted it is marked active and returned unchanged;
otherwise a remote session is created (counted in `sessionCreateCalls`),
a fresh record is cached and persisted. -/
def GetOrCreateSession (threadID worktreePath repositoryPath repositoryName userID : String)
    (st : Registry) : Option SessionData × Registry :=
  match lazyLoadSession threadID st with
  | (some d, st1) =>
    let d1 := { d with active := true }
    (some d1, { st1 with sessionCache := (threadID, d1) :: st1.sessionCache })
  | (none, st1) =>
    let sid := "ses-" ++ toString st1.nextSessionNum
    let st2 := { st1 with
      nextSessionNum := st1.nextSessionNum + 1
      sessionCreateCalls := st1.sessionCreateCalls + 1 }
    let d : SessionData :=
      { threadID := threadID
        sessionID := sid
        model := { providerID := "", modelID := "" }
        worktreePath := worktreePath
        repositoryPath := repositoryPath
        repositoryName := repositoryName
        createdAt := st2.now
        commits := []
        session := some sid
        active := true
        isStreaming := false
        lastStatusMessageID := ""
        statusMessageContent := ""
        toolStatusHistory := ""
        currentResponse := ""
        userID := userID }
    let st3 := { st2 with sessionCache := (threadID, d) :: st2.sessionCache }
    (some d, saveSessionData d st3)

/-! ## Buffer updates of the listener (spec-modelled compositor entry
points) -/

/-- Modelled from the spec: `appendToContentHistory`, missing from the
sources (only its tests in `cmd/discord-bot/utils_test.go` are present),
appends a fragment to a history buffer separated by a single newline. -/
def appendToContentHistory (existing newContent : List Char) : List Char :=
  if existing = [] then newContent
  else if existing.getLast? = some '\n' then existing ++ newContent
  else existing ++ '\n' :: newContent

/-- Modelled from the spec: the `updateToolStatus` and
`updateTextResponse` entry points called by the listener in `main.go` are
defined in a repository file absent from the sources; per the spec a
tool/reasoning fragment is appended to the running tool/thinking history
and a text response replaces (never appends to) the current-response
buffer. -/
def applyChatUpdate (d : SessionData) (u : ChatUpdate) : SessionData :=
  match u with
  | ChatUpdate.toolStatus s =>
    { d with toolStatusHistory := ⟨appendToContentHistory d.toolStatusHistory.data s.data⟩ }
  | ChatUpdate.textResponse s =>
    { d with currentResponse := s }

/-! ## Status-message compositor (spec-modelled `rebuild`) -/

/-- Drop characters up to and including the first newline; the empty list
when there is none. -/
def dropThroughNL : List Char → List Char
  | [] => []
  | '\n' :: t => t
  | _ :: t => dropThroughNL t

/-- The suffix of `s` that fits in `maxLen` characters, trimmed forward to
the next newline boundary so that no line is cut mid-way: when the raw
suffix already starts right after a newline it is kept whole, otherwise
its leading partial line is dropped. -/
def fitSuffix (maxLen : Nat) (s : List Char) : List Char :=
  if s.length ≤ maxLen then s
  else if (s.take (s.length - maxLen)).getLast? = some '\n' then
    s.drop (s.length - maxLen)
  else dropThroughNL (s.drop (s.length - maxLen))

/-- A chat-surface message operation performed by the compositor. -/
inductive MsgAction where
  | editMsg (id : Nat) (content : List Char)
  | createMsg (id : Nat) (content : List Char)
deriving DecidableEq, Repr

/-- The per-thread state of the outbound message compositor. -/
structure CompositorState where
  lastStatusMessageID : Option Nat
  statusMessageContent : List Char
  toolStatusHistory : List Char
  currentResponse : List Char
deriving DecidableEq, Repr

/-- Modelled from the spec: the current-generation status-message rebuild
called through `updateToolStatus`/`updateTextResponse` is defined in a
repository file absent from the sources (the `updateStatusMessage` under
part_003 belongs to the older listener without the two buffers).  Per the
spec: recompute header plus the two buffers; if it fits, edit the live
message or create one; if not, edit the live message once to carry a
continued-below marker, then post a new message with a "(continued)"
header whose body is the suffix of the combined buffers that fits under
the limit, trimmed at a newline boundary, and adopt the new message id as
the target of all future edits.  `newId` is the id Discord assigns to a
newly created message. -/
def rebuildStatusMessage (limit : Nat) (header contHeader marker : List Char) (newId : Nat)
    (st : CompositorState) : CompositorState × List MsgAction :=
  let combined := st.toolStatusHistory ++ st.currentResponse
  let body := header ++ combined
  if body.length ≤ limit then
    match st.lastStatusMessageID with
    | some mid => ({ st with statusMessageContent := body }, [MsgAction.editMsg mid body])
    | none =>
      ({ st with lastStatusMessageID := some newId, statusMessageContent := body },
       [MsgAction.createMsg newId body])
  else
    let contBody := contHeader ++ fitSuffix (limit - contHeader.length) combined
    let markActions := match st.lastStatusMessageID with
      | some mid => [MsgAction.editMsg mid (st.statusMessageContent ++ marker)]
      | none => []
    ({ st with lastStatusMessageID := some newId, statusMessageContent := contBody },
     markActions ++ [MsgAction.createMsg newId contBody])

/-! ## Listener set (`spawnListenerIfNotExists`, `main.go`) -/

/-- The listener bookkeeping: the set of thread ids holding a cancel
handle in `activeListeners`, and the number of listener goroutines
started.  The whole body of `spawnListenerIfNotExists` runs under
`listenersMutex`, so concurrent invocations serialize; the model below is
that serialized execution. -/
structure Listeners where
  activeListeners : List String
  spawnedTasks : Nat
deriving DecidableEq, Repr

/-- `spawnListenerIfNotExists` (`main.go` lines 249-270): atomically
check-and-insert under the listeners lock; returns whether a new listener
task was started. -/
def spawnListenerIfNotExists (threadID : String) (st : Listeners) : Bool × Listeners :=
  if threadID ∈ st.activeListeners then (false, st)
  else
    (true,
     { activeListeners := threadID :: st.activeListeners
       spawnedTasks := st.spawnedTasks + 1 })

/-- `n` serialized invocations of `spawnListenerIfNotExists` for the same
thread, collecting each invocation's return value. -/
def spawnListenerTimes (threadID : String) : Nat → Listeners → List Bool × Listeners
  | 0, st => ([], st)
  | n + 1, st =>
    let r1 := spawnListenerIfNotExists threadID st
    let r2 := spawnListenerTimes threadID n r1.2
    (r1.1 :: r2.1, r2.2)

/-! ## Commit flow (`handleCommitCommand`, unnamed part_000) -/

/-- `GitStatus` from `git-ops.go`. -/
structure GitStatus where
  isClean : Bool
  modifiedFiles : List String
  untrackedFiles : List String
  stagedFiles : List String
deriving DecidableEq, Repr

/-- A mutating git operation performed by the commit flow. -/
inductive GitMutation where
  | addAll
  | commit
  | push
deriving DecidableEq, Repr

/-- Results of the git subprocess calls made by `handleCommitCommand`,
supplied as an environment: `GetStatus`, `AddAll` (an error or success),
`Commit` (an error or the new hash), `GetCurrentBranch`, `Push` (an error
or success). -/
structure GitEnv where
  statusResult : Except String GitStatus
  addResult : Option String
  commitResult : Except String String
  branchResult : Except String String
  pushResult : Option String

/-- Update the tail commit record in place, as
`session.Commits[len(session.Commits)-1] = ...` guarded by
`len(session.Commits) > 0`. -/
def updateTail (cs : List CommitRecord) (f : CommitRecord → CommitRecord) : List CommitRecord :=
  cs.dropLast ++ (cs.getLast?.map f).toList

/-- The outcome of one run of the commit flow: the session's commit list,
the mutating git operations performed in order, whether the record was
persisted via `saveSessionData`, the branch pushed to (when a push was
attempted) and the user-facing reply. -/
structure CommitFlowResult where
  commits : List CommitRecord
  mutations : List GitMutation
  saved : Bool
  pushedBranch : Option String
  reply : String
deriving Repr

/-- The git portion of `handleCommitCommand` (part_000 lines 270-421),
after the AI summary has been produced: append a pending commit record,
short-circuit with `no_changes` when `GetStatus` reports clean (a status
error logs and proceeds), then stage, commit, resolve the branch (falling
back to "main" on error) and push, updating and persisting the tail
record on each terminal path. -/
def handleCommitCommand (env : GitEnv) (summary : String) (now : Int)
    (commits0 : List CommitRecord) : CommitFlowResult :=
  let commits1 := commits0 ++ [{ hash := "", summary := summary, timestamp := now, status := "pending" }]
  let cleanShortcut : Bool :=
    match env.statusResult with
    | Except.ok gs => gs.isClean
    | Except.error _ => false
  if cleanShortcut then
    { commits := updateTail commits1 (fun c => { c with status := "no_changes" })
      mutations := [], saved := true, pushedBranch := none
      reply := "No changes to commit." }
  else
    match env.addResult with
    | some _ =>
      { commits := commits1, mutations := [GitMutation.addAll], saved := false
        pushedBranch := none, reply := "Failed to stage changes." }
    | none =>
      match env.commitResult with
      | Except.error _ =>
        { commits := updateTail commits1 (fun c => { c with status := "failed" })
          mutations := [GitMutation.addAll, GitMutation.commit], saved := true
          pushedBranch := none, reply := "Failed to commit changes." }
      | Except.ok commitHash =>
        let currentBranch :=
          match env.branchResult with
          | Except.ok b => b
          | Except.error _ => "main"
        match env.pushResult with
        | some _ =>
          { commits := updateTail commits1 (fun c => { c with status := "failed", hash := commitHash })
            mutations := [GitMutation.addAll, GitMutation.commit, GitMutation.push], saved := true
            pushedBranch := some currentBranch, reply := "Failed to push changes." }
        | none =>
          { commits := updateTail commits1 (fun c => { c with status := "success", hash := commitHash })
            mutations := [GitMutation.addAll, GitMutation.commit, GitMutation.push], saved := true
            pushedBranch := some currentBranch, reply := "Commit completed successfully!" }

/-! ## Discord message chunking (`SendDiscordMessage`, `discord.go`) -/

/-- `strings.LastIndex(l, "\n")` restricted to the taken prefix: the index
of the last newline, `none` when there is none. -/
def lastNLIdx : List Char → Option Nat
  | [] => none
  | c :: t =>
    match lastNLIdx t with
    | some p => some (p + 1)
    | none => if c = '\n' then some 0 else none

/-- The split point chosen by `SendDiscordMessage` for an over-long
remainder: `strings.LastIndex(chunk[:limit], "\n")`, replaced by `limit`
when the result is `-1` or `0` (`if split <= 0`). -/
def goSplit (limit : Nat) (s : List Char) : Nat :=
  match lastNLIdx (s.take limit) with
  | some p => if p = 0 then limit else p
  | none => limit

/-- The chunking loop of `SendDiscordMessage` (`discord.go` lines
162-182).  Each emitted pair is one sent chunk together with whether a
separating newline was trimmed off the remainder after it
(`strings.TrimPrefix(remaining[split:], "\n")`).  `fuel` bounds the
recursion; every caller passes at least the length of the message, which
is sufficient because each iteration strictly shortens the remainder. -/
def sendChunksGo (limit : Nat) : Nat → List Char → List (List Char × Bool)
  | _, [] => []
  | 0, _ :: _ => []
  | fuel + 1, s =>
    if s.length ≤ limit then [(s, false)]
    else
      let split := goSplit limit s
      let chunk := s.take split
      let rest := s.drop split
      if rest.head? = some '\n' then (chunk, true) :: sendChunksGo limit fuel rest.tail
      else (chunk, false) :: sendChunksGo limit fuel rest

/-- `const limit = 2000` in `discord.go`. -/
def discordLimit : Nat := 2000

/-- `SendDiscordMessage` modelled as the sequence of chunks it sends. -/
def SendDiscordMessage (message : List Char) : List (List Char × Bool) :=
  sendChunksGo discordLimit message.length message

/-- Reassemble chunks, re-inserting the single newline separator that the
chunker trimmed between consecutive chunks. -/
def rejoinChunks : List (List Char × Bool) → List Char
  | [] => []
  | (c, sep) :: rest => c ++ (if sep then '\n' :: rejoinChunks rest else rejoinChunks rest)

/-! ## Worktree removal guard (`RemoveWorktree`, `git-ops.go`) -/

/-- Environment for `RemoveWorktree`: the result of `GetCurrentBranch` at
the worktree path, and whether `git worktree remove --force` and the
`os.RemoveAll` fallback succeed. -/
structure WorktreeEnv where
  currentBranch : Except String String
  gitRemoveOk : Bool
  removeAllOk : Bool

/-- A deletion action attempted by `RemoveWorktree`. -/
inductive RemovalAction where
  | gitWorktreeRemove
  | removeAllDir
deriving DecidableEq, Repr

/-- `RemoveWorktree` (`git-ops.go` lines 74-99): the current branch is
read with the error discarded (`branch, _ := g.GetCurrentBranch(...)`, and
`GetCurrentBranch` returns the empty string on error); `main`, `master`
and the empty string abort before any deletion, otherwise `git worktree
remove --force` is attempted with an `os.RemoveAll` fallback. -/
def RemoveWorktree (env : WorktreeEnv) : Except String Unit × List RemovalAction :=
  let branch :=
    match env.currentBranch with
    | Except.ok b => b
    | Except.error _ => ""
  if branch = "main" ∨ branch = "master" ∨ branch = "" then
    (Except.error ("not in a worktree. abort"), [])
  else if env.gitRemoveOk then
    (Except.ok (), [RemovalAction.gitWorktreeRemove])
  else if env.removeAllOk then
    (Except.ok (), [RemovalAction.gitWorktreeRemove, RemovalAction.removeAllDir])
  else
    (Except.error ("failed to remove worktree directory"),
     [RemovalAction.gitWorktreeRemove, RemovalAction.removeAllDir])

/-! ## Theorems -/

/-- Updating the tail of a list obtained by appending one element updates
that element. -/
theorem updateTail_concat (cs : List CommitRecord) (c : CommitRecord)
    (f : CommitRecord → CommitRecord) :
    updateTail (cs ++ [c]) f = cs ++ [f c] := by
  simp [updateTail, List.dropLast_concat, List.getLast?_concat]

/-- Once a thread is registered, further invocations of
`spawnListenerIfNotExists` all return false and change nothing. -/
theorem spawnListenerTimes_present (tid : String) (n : Nat) (st : Listeners)
    (h : tid ∈ st.activeListeners) :
    spawnListenerTimes tid n st = (List.replicate n false, st) := by
  induction n with
  | zero => simp [spawnListenerTimes]
  | succ m ih =>
    simp [spawnListenerTimes, spawnListenerIfNotExists, h, ih, List.replicate_succ]

/-- C5: For every thread identifier and every number N ≥ 1 of invocations
of `spawnListenerIfNotExists` with that identifier (serialized by the
listeners lock that guards its whole body), exactly one invocation
returns true — inserting the cancellation handle and starting a listener
task — and every other invocation observes the existing entry and returns
false without spawning. -/
theorem spawnListener_exactly_once (tid : String) (n : Nat) (st : Listeners)
    (hn : 1 ≤ n) (habsent : tid ∉ st.activeListeners) :
    (spawnListenerTimes tid n st).1.count true = 1 ∧
      (spawnListenerTimes tid n st).2.spawnedTasks = st.spawnedTasks + 1 ∧
      tid ∈ (spawnListenerTimes tid n st).2.activeListeners := by
  obtain ⟨m, rfl⟩ : ∃ m, n = m + 1 := ⟨n - 1, by omega⟩
  have hmem : tid ∈ (tid :: st.activeListeners) := List.mem_cons_self tid _
  simp only [spawnListenerTimes, spawnListenerIfNotExists, if_neg habsent]
  rw [spawnListenerTimes_present tid m _ hmem]
  refine ⟨?_, rfl, hmem⟩
  simp [List.count_replicate]

/-- Closed witness for `spawnListener_exactly_once`: three invocations for
one thread from an empty listener set spawn exactly one task. -/
theorem spawnListener_exactly_once_witness :
    (spawnListenerTimes ("thread-1") 3 ⟨[], 0⟩).1.count true = 1 ∧
      (spawnListenerTimes ("thread-1") 3 ⟨[], 0⟩).2.spawnedTasks = 0 + 1 ∧
      "thread-1" ∈ (spawnListenerTimes ("thread-1") 3 ⟨[], 0⟩).2.activeListeners :=
  spawnListener_exactly_once ("thread-1") 3 ⟨[], 0⟩ (by decide) (by decide)

/-- C7: in the commit flow, whenever `GetStatus` reports the workspace
clean, the pending tail commit record (appended before any git mutation)
becomes `no_changes`, the record is persisted, and no git mutation
(AddAll, Commit or Push) is performed. -/
theorem commitFlow_clean_no_mutation (env : GitEnv) (summary : String) (now : Int)
    (commits0 : List CommitRecord) (gs : GitStatus)
    (hst : env.statusResult = Except.ok gs) (hclean : gs.isClean = true) :
    handleCommitCommand env summary now commits0 =
      { commits := commits0 ++ [{ hash := "", summary := summary, timestamp := now, status := "no_changes" }]
        mutations := [], saved := true, pushedBranch := none
        reply := "No changes to commit." } := by
  simp [handleCommitCommand, hst, hclean, updateTail_concat]

/-- Closed witness for `commitFlow_clean_no_mutation`. -/
theorem commitFlow_clean_no_mutation_witness :
    handleCommitCommand
        ⟨Except.ok ⟨true, [], [], []⟩, none, Except.ok ("h1"), Except.ok ("b"), none⟩ "sum" 7 [] =
      { commits := [{ hash := "", summary := "sum", timestamp := 7, status := "no_changes" }]
        mutations := [], saved := true, pushedBranch := none
        reply := "No changes to commit." } := by
  have h := commitFlow_clean_no_mutation
    ⟨Except.ok ⟨true, [], [], []⟩, none, Except.ok ("h1"), Except.ok ("b"), none⟩
    "sum" 7 [] ⟨true, [], [], []⟩ rfl rfl
  simpa using h

/-- C8: in the commit flow, whenever the local commit succeeds and the
subsequent push fails, the tail commit record ends `failed` with its hash
populated by the successful local commit, and the record is persisted. -/
theorem commitFlow_push_failure (env : GitEnv) (summary : String) (now : Int)
    (commits0 : List CommitRecord) (commitHash perr : String)
    (hns : ∀ gs, env.statusResult = Except.ok gs → gs.isClean = false)
    (hadd : env.addResult = none)
    (hcommit : env.commitResult = Except.ok commitHash)
    (hpush : env.pushResult = some perr) :
    (handleCommitCommand env summary now commits0).commits =
        commits0 ++ [{ hash := commitHash, summary := summary, timestamp := now, status := "failed" }]
      ∧ (handleCommitCommand env summary now commits0).saved = true
      ∧ (handleCommitCommand env summary now commits0).mutations =
          [GitMutation.addAll, GitMutation.commit, GitMutation.push] := by
  have hshort :
      (match env.statusResult with
        | Except.ok gs => gs.isClean
        | Except.error _ => false) = false := by
    cases h : env.statusResult with
    | ok gs => exact hns gs h
    | error e => rfl
  refine ⟨?_, ?_, ?_⟩ <;>
    simp [handleCommitCommand, hshort, hadd, hcommit, hpush, updateTail_concat]

/-- Closed witness for `commitFlow_push_failure`. -/
theorem commitFlow_push_failure_witness :
    (handleCommitCommand
        ⟨Except.ok ⟨false, ["f"], [], []⟩, none, Except.ok ("h1"), Except.ok ("b"), some ("denied")⟩
        "sum" 7 []).commits =
        [{ hash := "h1", summary := "sum", timestamp := 7, status := "failed" }]
      ∧ (handleCommitCommand
        ⟨Except.ok ⟨false, ["f"], [], []⟩, none, Except.ok ("h1"), Except.ok ("b"), some ("denied")⟩
        "sum" 7 []).saved = true
      ∧ (handleCommitCommand
        ⟨Except.ok ⟨false, ["f"], [], []⟩, none, Except.ok ("h1"), Except.ok ("b"), some ("denied")⟩
        "sum" 7 []).mutations = [GitMutation.addAll, GitMutation.commit, GitMutation.push] := by
  have h := commitFlow_push_failure
    ⟨Except.ok ⟨false, ["f"], [], []⟩, none, Except.ok ("h1"), Except.ok ("b"), some ("denied")⟩
    "sum" 7 [] "h1" "denied"
    (by intro gs hgs; cases hgs; rfl) rfl rfl rfl
  simpa using h

/-- C10: `RemoveWorktree` returns an error and attempts no deletion
whenever the current branch of the worktree is `main`, `master`, or could
not be determined (the empty string, which `GetCurrentBranch` yields on
error); for any other branch name it attempts removal of the worktree. -/
theorem RemoveWorktree_branch_guard (env : WorktreeEnv) :
    ((match env.currentBranch with
        | Except.ok b => b
        | Except.error _ => "") = "main" ∨
      (match env.currentBranch with
        | Except.ok b => b
        | Except.error _ => "") = "master" ∨
      (match env.currentBranch with
        | Except.ok b => b
        | Except.error _ => "") = "" →
      (RemoveWorktree env).2 = [] ∧
        (RemoveWorktree env).1 = Except.error ("not in a worktree. abort"))
    ∧ ((match env.currentBranch with
        | Except.ok b => b
        | Except.error _ => "") ≠ "main" →
      (match env.currentBranch with
        | Except.ok b => b
        | Except.error _ => "") ≠ "master" →
      (match env.currentBranch with
        | Except.ok b => b
        | Except.error _ => "") ≠ "" →
      RemovalAction.gitWorktreeRemove ∈ (RemoveWorktree env).2) := by
  constructor
  · intro h
    simp [RemoveWorktree, h]
  · intro h1 h2 h3
    have hguard :
        ¬ ((match env.currentBranch with
            | Except.ok b => b
            | Except.error _ => "") = "main" ∨
          (match env.currentBranch with
            | Except.ok b => b
            | Except.error _ => "") = "master" ∨
          (match env.currentBranch with
            | Except.ok b => b
            | Except.error _ => "") = "") := by
      push_neg
      exact ⟨h1, h2, h3⟩
    by_cases hg : env.gitRemoveOk <;> by_cases hr : env.removeAllOk <;>
      simp [RemoveWorktree, hguard, hg, hr]

/-- Closed witness for `RemoveWorktree_branch_guard`: aborting on `main`
and attempting removal on a feature branch. -/
theorem RemoveWorktree_branch_guard_witness :
    ((RemoveWorktree ⟨Except.ok ("main"), true, true⟩).2 = [] ∧
      (RemoveWorktree ⟨Except.ok ("main"), true, true⟩).1 =
        Except.error ("not in a worktree. abort"))
    ∧ RemovalAction.gitWorktreeRemove ∈ (RemoveWorktree ⟨Except.ok ("feature-x"), false, true⟩).2 :=
  ⟨(RemoveWorktree_branch_guard ⟨Except.ok ("main"), true, true⟩).1 (by decide),
   (RemoveWorktree_branch_guard ⟨Except.ok ("feature-x"), false, true⟩).2
     (by decide) (by decide) (by decide)⟩

/-- C1 (counterexample): the claim fails as stated — a tool-type part
re-delivered with nested state status `completed` and a non-null nested
end time but an empty tool name produces zero chat updates, not exactly
one (`main.go` line 141 requires `part.Tool != ""`). -/
theorem toolPart_completed_emptyName_no_update :
    (MessagePart.mk ("p1") ("m1") ("s1") ("tool") ("") ("") ("")
        (some ⟨"completed", "", "", some ⟨1, some 2⟩⟩) none).type = PartTypeTool
    ∧ ((MessagePart.mk ("p1") ("m1") ("s1") ("tool") ("") ("") ("")
        (some ⟨"completed", "", "", some ⟨1, some 2⟩⟩) none).state.map ToolState.status) =
        some ToolStatusCompleted
    ∧ (((MessagePart.mk ("p1") ("m1") ("s1") ("tool") ("") ("") ("")
        (some ⟨"completed", "", "", some ⟨1, some 2⟩⟩) none).state.bind ToolState.time).bind
        TimeRange.endTime).isSome = true
    ∧ ¬ (partChatUpdates (MessagePart.mk ("p1") ("m1") ("s1") ("tool") ("") ("") ("")
        (some ⟨"completed", "", "", some ⟨1, some 2⟩⟩) none)).length = 1 := by
  refine ⟨rfl, rfl, rfl, ?_⟩
  decide

/-- C1 (amended): a tool part whose nested tool-state status is `running`
or whose nested state's time range has no end never produces a chat
update; re-delivered with status `completed`, a non-null nested end time
and a non-empty tool name it produces exactly one chat update; for
non-tool parts readiness is decided by the part's own top-level time
range having a non-null end. -/
theorem eventListener_tool_readiness (p : MessagePart) :
    (∀ st, p.state = some st → p.type = PartTypeTool →
      ((st.status = ToolStatusRunning ∨ st.time.bind TimeRange.endTime = none) →
        partChatUpdates p = [])
      ∧ (st.status = ToolStatusCompleted → (st.time.bind TimeRange.endTime).isSome →
          p.tool ≠ "" → (partChatUpdates p).length = 1))
    ∧ (p.type ≠ PartTypeTool →
        shouldSendToDiscord p = (p.time.bind TimeRange.endTime).isSome) := by
  constructor
  · intro st hst hty
    constructor
    · intro hnot
      have hgate : shouldSendToDiscord p = false := by
        rcases hnot with hrun | hend
        · simp only [shouldSendToDiscord, hty, if_pos rfl, hst]
          simp [hrun, ToolStatusRunning, ToolStatusCompleted]
        · simp only [shouldSendToDiscord, hty, if_pos rfl, hst]
          cases ht : st.time with
          | none => simp
          | some t =>
            rw [ht] at hend
            simp at hend
            simp [hend]
      simp [partChatUpdates, hgate]
    · intro hdone hend htool
      have hgate : shouldSendToDiscord p = true := by
        simp only [shouldSendToDiscord, hty, if_pos rfl, hst]
        cases ht : st.time with
        | none => rw [ht] at hend; simp at hend
        | some t =>
          rw [ht] at hend
          simp at hend
          simp [hdone, hend]
      simp [partChatUpdates, hgate, hty, hst, htool, hdone]
  · intro hty
    simp only [shouldSendToDiscord, if_neg hty]
    cases ht : p.time with
    | none => simp
    | some t => simp

/-- Closed witness for `eventListener_tool_readiness`: a running tool part
produces no update, the same part completed with an end time produces
exactly one, and a ready text part passes the top-level gate. -/
theorem eventListener_tool_readiness_witness :
    partChatUpdates (MessagePart.mk ("p1") ("m1") ("s1") ("tool") ("") ("bash") ("")
        (some ⟨"running", "", "", some ⟨1, none⟩⟩) none) = []
    ∧ (partChatUpdates (MessagePart.mk ("p1") ("m1") ("s1") ("tool") ("") ("bash") ("")
        (some ⟨"completed", "", "", some ⟨1, some 2⟩⟩) none)).length = 1
    ∧ shouldSendToDiscord (MessagePart.mk ("p2") ("m1") ("s1") ("text") ("hi") ("") ("")
        none (some ⟨1, some 2⟩)) =
      (((MessagePart.mk ("p2") ("m1") ("s1") ("text") ("hi") ("") ("")
        none (some ⟨1, some 2⟩)).time.bind TimeRange.endTime).isSome) :=
  ⟨((eventListener_tool_readiness _).1 _ rfl rfl).1 (Or.inl rfl),
   ((eventListener_tool_readiness _).1 _ rfl rfl).2 rfl (by decide) (by decide),
   (eventListener_tool_readiness _).2 (by decide)⟩

/-- Round trip for one commit record. -/
theorem commitRecord_marshal_roundtrip (c : CommitRecord) :
    unmarshalCommitRecord (marshalCommitRecord c) = c := rfl

/-- C6: serializing a `SessionData` and deserializing it reproduces the
eight persisted fields exactly, and every `json:"-"` field comes back as
its zero value. -/
theorem sessionData_marshal_roundtrip (d : SessionData) :
    unmarshalSessionData (marshalSessionData d) =
      { threadID := d.threadID
        sessionID := d.sessionID
        model := d.model
        worktreePath := d.worktreePath
        repositoryPath := d.repositoryPath
        repositoryName := d.repositoryName
        createdAt := d.createdAt
        commits := d.commits
        session := none
        active := false
        isStreaming := false
        lastStatusMessageID := ""
        statusMessageContent := ""
        toolStatusHistory := ""
        currentResponse := ""
        userID := "" } := by
  simp only [marshalSessionData, unmarshalSessionData, getStr, getInt, getArr, getObj, lookupA,
    marshalModel, unmarshalModel]
  simp [commitRecord_marshal_roundtrip, List.map_map, Function.comp_def]

/-- C2: calling `GetOrCreateSession` twice with the same thread
identifier returns the same record with the same session identifier, the
second call finds the cached or persisted record, marks it active and
returns it unchanged, and the remote session-create call is invoked at
most once across the two calls (never by the second). -/
theorem GetOrCreateSession_idempotent (st : Registry) (tid wt rp rn uid : String) :
    ((GetOrCreateSession tid wt rp rn uid st).1.isSome = true)
    ∧ (GetOrCreateSession tid wt rp rn uid (GetOrCreateSession tid wt rp rn uid st).2).1
        = (GetOrCreateSession tid wt rp rn uid st).1
    ∧ (GetOrCreateSession tid wt rp rn uid
          (GetOrCreateSession tid wt rp rn uid st).2).1.map SessionData.sessionID
        = (GetOrCreateSession tid wt rp rn uid st).1.map SessionData.sessionID
    ∧ (GetOrCreateSession tid wt rp rn uid
          (GetOrCreateSession tid wt rp rn uid st).2).1.map SessionData.active = some true
    ∧ (GetOrCreateSession tid wt rp rn uid
          (GetOrCreateSession tid wt rp rn uid st).2).2.sessionCreateCalls
        = (GetOrCreateSession tid wt rp rn uid st).2.sessionCreateCalls
    ∧ (GetOrCreateSession tid wt rp rn uid st).2.sessionCreateCalls
        ≤ st.sessionCreateCalls + 1 := by
  cases hc : lookupA st.sessionCache tid with
  | some d =>
    refine ⟨?_, ?_, ?_, ?_, ?_, ?_⟩ <;>
      simp [GetOrCreateSession, lazyLoadSession, saveSessionData, hc, lookupA]
  | none =>
    cases hf : lookupA st.sessionFiles tid with
    | some j =>
      refine ⟨?_, ?_, ?_, ?_, ?_, ?_⟩ <;>
        simp [GetOrCreateSession, lazyLoadSession, saveSessionData, hc, hf, lookupA]
    | none =>
      refine ⟨?_, ?_, ?_, ?_, ?_, ?_⟩ <;>
        simp [GetOrCreateSession, lazyLoadSession, saveSessionData, hc, hf, lookupA]

/-- Unfolding: a double newline collapses. -/
theorem rem_nl_nl (t : List Char) :
    removeExcessiveNewLine ('\n' :: '\n' :: t) = removeExcessiveNewLine ('\n' :: t) := by
  simp [removeExcessiveNewLine]

/-- Unfolding: a newline followed by a non-newline is kept. -/
theorem rem_nl_cons (c : Char) (t : List Char) (hc : c ≠ '\n') :
    removeExcessiveNewLine ('\n' :: c :: t) = '\n' :: removeExcessiveNewLine (c :: t) := by
  simp [removeExcessiveNewLine, hc]

/-- Unfolding: a non-newline head is kept. -/
theorem rem_cons_ne (c : Char) (t : List Char) (hc : c ≠ '\n') (ht : t ≠ []) :
    removeExcessiveNewLine (c :: t) = c :: removeExcessiveNewLine t := by
  cases t with
  | nil => exact absurd rfl ht
  | cons c2 t2 => simp [removeExcessiveNewLine, hc]

/-- Unfolding: singletons are kept. -/
theorem rem_single (c : Char) : removeExcessiveNewLine [c] = [c] := by
  simp [removeExcessiveNewLine]

/-- Unfolding: the empty text is kept. -/
theorem rem_nil : removeExcessiveNewLine [] = [] := by
  simp [removeExcessiveNewLine]

/-- Collapsing an adjacent newline pair anywhere does not change the
cleaned text: every run of two or more newlines cleans like a single
newline. -/
theorem rem_collapse_pair (b : List Char) :
    ∀ a : List Char,
      removeExcessiveNewLine (a ++ '\n' :: '\n' :: b) =
        removeExcessiveNewLine (a ++ '\n' :: b) := by
  intro a
  induction a with
  | nil => exact rem_nl_nl b
  | cons c a ih =>
    by_cases hc : c = '\n'
    · subst hc
      cases a with
      | nil =>
        simp only [List.nil_append, List.cons_append]
        rw [rem_nl_nl, rem_nl_nl]
      | cons c2 a2 =>
        by_cases hc2 : c2 = '\n'
        · subst hc2
          simp only [List.cons_append] at ih ⊢
          rw [rem_nl_nl, rem_nl_nl]
          exact ih
        · simp only [List.cons_append] at ih ⊢
          rw [rem_nl_cons c2 _ hc2, rem_nl_cons c2 _ hc2, ih]
    · simp only [List.cons_append]
      rw [rem_cons_ne c _ hc (by simp), rem_cons_ne c _ hc (by simp), ih]

/-- `hasDoubleNL` steps over a head that does not start a double
newline. -/
theorem hasDoubleNL_cons (c : Char) (t : List Char)
    (h : ¬ (c = '\n' ∧ t.head? = some '\n')) :
    hasDoubleNL (c :: t) = hasDoubleNL t := by
  cases t with
  | nil => by_cases hc : c = '\n' <;> simp [hasDoubleNL]
  | cons c2 t2 =>
    by_cases hc : c = '\n'
    · subst hc
      by_cases hc2 : c2 = '\n'
      · exact absurd ⟨rfl, by simp [hc2]⟩ h
      · simp [hasDoubleNL, hc2]
    · simp [hasDoubleNL, hc]

/-- Text without consecutive newlines is left unchanged by the
cleaner. -/
theorem rem_fixpoint (l : List Char) (h : hasDoubleNL l = false) :
    removeExcessiveNewLine l = l := by
  induction l using removeExcessiveNewLine.induct with
  | case1 => exact rem_nil
  | case2 t ih => simp [hasDoubleNL] at h
  | case3 c t hc ih =>
    have hc' : c ≠ '\n' := fun he => hc he
    rw [rem_nl_cons c t hc']
    rw [hasDoubleNL_cons '\n' (c :: t) (by simp [hc'])] at h
    rw [ih h]
  | case4 c => exact rem_single c
  | case5 c t h1 h2 h3 ih =>
    have ht : t ≠ [] := fun he => h3 he
    have hc : c ≠ '\n' := by
      intro he
      cases t with
      | nil => exact h3 rfl
      | cons c1 t1 => exact h2 c1 t1 he rfl
    rw [rem_cons_ne c t hc ht]
    rw [hasDoubleNL_cons c t (by intro hx; exact hc hx.1)] at h
    rw [ih h]

/-- The cleaner preserves the first character. -/
theorem rem_head (l : List Char) :
    (removeExcessiveNewLine l).head? = l.head? := by
  induction l using removeExcessiveNewLine.induct with
  | case1 => rw [rem_nil]
  | case2 t ih => rw [rem_nl_nl, ih]; rfl
  | case3 c t hc ih =>
    have hc' : c ≠ '\n' := fun he => hc he
    rw [rem_nl_cons c t hc']
    rfl
  | case4 c => rw [rem_single]
  | case5 c t h1 h2 h3 ih =>
    have ht : t ≠ [] := fun he => h3 he
    have hc : c ≠ '\n' := by
      intro he
      cases t with
      | nil => exact h3 rfl
      | cons c1 t1 => exact h2 c1 t1 he rfl
    rw [rem_cons_ne c t hc ht]
    rfl

/-- The cleaned text never contains two consecutive newlines. -/
theorem rem_noDouble (l : List Char) :
    hasDoubleNL (removeExcessiveNewLine l) = false := by
  induction l using removeExcessiveNewLine.induct with
  | case1 => rw [rem_nil]; rfl
  | case2 t ih => rw [rem_nl_nl]; exact ih
  | case3 c t hc ih =>
    have hc' : c ≠ '\n' := fun he => hc he
    rw [rem_nl_cons c t hc']
    rw [hasDoubleNL_cons '\n' _ ?_]
    · exact ih
    · intro hx
      have hh := hx.2
      rw [rem_head] at hh
      simp at hh
      exact hc' hh
  | case4 c =>
    rw [rem_single]
    cases hc : decide (c = '\n') <;> simp [hasDoubleNL]
  | case5 c t h1 h2 h3 ih =>
    have ht : t ≠ [] := fun he => h3 he
    have hc : c ≠ '\n' := by
      intro he
      cases t with
      | nil => exact h3 rfl
      | cons c1 t1 => exact h2 c1 t1 he rfl
    rw [rem_cons_ne c t hc ht]
    rw [hasDoubleNL_cons c _ (fun hx => hc hx.1)]
    exact ih

/-- C3: a ready text part produces exactly the text-response update whose
content is the cleaned text, the update replaces (not appends to) the
thread's current-response buffer, and the cleaning collapses every run of
two or more consecutive newlines to a single newline: collapsing an
adjacent pair anywhere leaves the cleaned text unchanged, text with no
such run is untouched, and the output never contains a double newline. -/
theorem textResponse_cleaning (p : MessagePart) (d : SessionData) (t : TimeRange) (e : Int)
    (hty : p.type = PartTypeText) (htime : p.time = some t) (hend : t.endTime = some e)
    (htext : p.text ≠ "") :
    partChatUpdates p =
        [ChatUpdate.textResponse ("Response:\n" ++ removeExcessiveNewLineStr p.text)]
    ∧ (applyChatUpdate d (ChatUpdate.textResponse
          ("Response:\n" ++ removeExcessiveNewLineStr p.text))).currentResponse
        = "Response:\n" ++ removeExcessiveNewLineStr p.text
    ∧ (∀ a b : List Char,
        removeExcessiveNewLine (a ++ '\n' :: '\n' :: b) =
          removeExcessiveNewLine (a ++ '\n' :: b))
    ∧ (∀ l : List Char, hasDoubleNL l = false → removeExcessiveNewLine l = l)
    ∧ (∀ l : List Char, hasDoubleNL (removeExcessiveNewLine l) = false) := by
  have hne : p.type ≠ PartTypeTool := by
    rw [hty]; decide
  have hgate : shouldSendToDiscord p = true := by
    simp [shouldSendToDiscord, hne, htime, hend]
  refine ⟨?_, rfl, fun a b => rem_collapse_pair b a, rem_fixpoint, rem_noDouble⟩
  simp [partChatUpdates, hgate, hne, hty, htext, PartTypeText, PartTypeReasoning, PartTypeTool]

/-- Closed witness for `textResponse_cleaning`: a completed text part with
a triple newline collapses it to one and replaces the buffer. -/
theorem textResponse_cleaning_witness :
    partChatUpdates (MessagePart.mk ("p1") ("m1") ("s1") ("text") ("a\n\n\nb") ("") ("")
        none (some ⟨1, some 2⟩)) =
      [ChatUpdate.textResponse ("Response:\n" ++
        removeExcessiveNewLineStr ("a\n\n\nb"))]
    ∧ (applyChatUpdate
        (SessionData.mk ("t") ("s") ⟨"p", "m"⟩ ("w") ("rp") ("rn") 0 [] none false false ("") ("") ("") ("old") ("u"))
        (ChatUpdate.textResponse ("Response:\n" ++
          removeExcessiveNewLineStr ("a\n\n\nb")))).currentResponse
      = "Response:\n" ++ removeExcessiveNewLineStr ("a\n\n\nb") := by
  have h := textResponse_cleaning
    (MessagePart.mk ("p1") ("m1") ("s1") ("text") ("a\n\n\nb") ("") ("") none (some ⟨1, some 2⟩))
    (SessionData.mk ("t") ("s") ⟨"p", "m"⟩ ("w") ("rp") ("rn") 0 [] none false false ("") ("") ("") ("old") ("u"))
    ⟨1, some 2⟩ 2 rfl rfl rfl (by decide)
  exact ⟨h.1, h.2.1⟩

/-- `dropThroughNL` yields a suffix. -/
theorem dropThroughNL_suffix (l : List Char) : dropThroughNL l <:+ l := by
  induction l with
  | nil => simp [dropThroughNL]
  | cons c t ih =>
    by_cases hc : c = '\n'
    · subst hc
      simp only [dropThroughNL]
      exact List.suffix_cons '\n' t
    · rw [show dropThroughNL (c :: t) = dropThroughNL t from by simp [dropThroughNL, hc]]
      exact ih.trans (List.suffix_cons c t)

/-- `dropThroughNL` never lengthens the text. -/
theorem dropThroughNL_length_le (l : List Char) : (dropThroughNL l).length ≤ l.length :=
  (dropThroughNL_suffix l).length_le

/-- `dropThroughNL` lands right after a newline, or empties the text. -/
theorem dropThroughNL_boundary (l : List Char) :
    (∃ pre, l = pre ++ '\n' :: dropThroughNL l) ∨ dropThroughNL l = [] := by
  induction l with
  | nil => exact Or.inr rfl
  | cons c t ih =>
    by_cases hc : c = '\n'
    · subst hc
      exact Or.inl ⟨[], by simp [dropThroughNL]⟩
    · rw [show dropThroughNL (c :: t) = dropThroughNL t from by simp [dropThroughNL, hc]]
      rcases ih with ⟨pre, hpre⟩ | hnil
      · exact Or.inl ⟨c :: pre, by rw [List.cons_append, ← hpre]⟩
      · exact Or.inr hnil

/-- `fitSuffix` yields a suffix of the combined buffers. -/
theorem fitSuffix_suffix (m : Nat) (s : List Char) : fitSuffix m s <:+ s := by
  unfold fitSuffix
  split
  · exact List.suffix_refl s
  · split
    · exact List.drop_suffix _ s
    · exact (dropThroughNL_suffix _).trans (List.drop_suffix _ s)

/-- `fitSuffix` fits under the given budget. -/
theorem fitSuffix_length (m : Nat) (s : List Char) : (fitSuffix m s).length ≤ m := by
  unfold fitSuffix
  split
  · omega
  · rename_i hlen
    have hd : (s.drop (s.length - m)).length = m := by
      rw [List.length_drop]
      omega
    split
    · omega
    · have := dropThroughNL_length_le (s.drop (s.length - m))
      omega

/-- `fitSuffix` is the whole text, empty, or starts right after a
newline — no line is cut mid-way. -/
theorem fitSuffix_boundary (m : Nat) (s : List Char) :
    fitSuffix m s = s ∨ fitSuffix m s = [] ∨
      ∃ pre, s = pre ++ '\n' :: fitSuffix m s := by
  unfold fitSuffix
  split
  · exact Or.inl rfl
  · split
    · rename_i hlast
      refine Or.inr (Or.inr ?_)
      have htake := List.dropLast_append_getLast? '\n' hlast
      refine ⟨(s.take (s.length - m)).dropLast, ?_⟩
      conv_lhs => rw [← List.take_append_drop (s.length - m) s]
      rw [← htake]
      simp
    · rcases dropThroughNL_boundary (s.drop (s.length - m)) with ⟨pre, hpre⟩ | hnil
      · refine Or.inr (Or.inr ?_)
        refine ⟨s.take (s.length - m) ++ pre, ?_⟩
        conv_lhs => rw [← List.take_append_drop (s.length - m) s, hpre]
        rw [List.append_assoc]
      · exact Or.inr (Or.inl hnil)

/-- C4: whenever the rebuilt status body would exceed the length limit
and a live message exists, the live message is edited exactly once to
carry the continued-below marker, a single new message is created whose
body is the "(continued)" header plus the suffix of the combined
tool/reasoning and response buffers that fits under the limit — a true
suffix, within budget, trimmed at a newline boundary so no line is cut
mid-way — and the new message id becomes the target of future edits. -/
theorem rebuildStatus_continuation (limit : Nat) (header contHeader marker : List Char)
    (newId mid : Nat) (st : CompositorState)
    (hlive : st.lastStatusMessageID = some mid)
    (hch : contHeader.length ≤ limit)
    (hover : limit < (header ++ (st.toolStatusHistory ++ st.currentResponse)).length) :
    (rebuildStatusMessage limit header contHeader marker newId st).2 =
        [MsgAction.editMsg mid (st.statusMessageContent ++ marker),
         MsgAction.createMsg newId
           (contHeader ++ fitSuffix (limit - contHeader.length)
             (st.toolStatusHistory ++ st.currentResponse))]
    ∧ (rebuildStatusMessage limit header contHeader marker newId st).1.lastStatusMessageID
        = some newId
    ∧ fitSuffix (limit - contHeader.length) (st.toolStatusHistory ++ st.currentResponse)
        <:+ (st.toolStatusHistory ++ st.currentResponse)
    ∧ (contHeader ++ fitSuffix (limit - contHeader.length)
         (st.toolStatusHistory ++ st.currentResponse)).length ≤ limit
    ∧ (fitSuffix (limit - contHeader.length) (st.toolStatusHistory ++ st.currentResponse)
          = st.toolStatusHistory ++ st.currentResponse
        ∨ fitSuffix (limit - contHeader.length) (st.toolStatusHistory ++ st.currentResponse)
          = []
        ∨ ∃ pre, st.toolStatusHistory ++ st.currentResponse
            = pre ++ '\n' :: fitSuffix (limit - contHeader.length)
                (st.toolStatusHistory ++ st.currentResponse)) := by
  have hnot : ¬ (header ++ (st.toolStatusHistory ++ st.currentResponse)).length ≤ limit :=
    Nat.not_le.mpr hover
  simp only [List.length_append] at hnot
  refine ⟨?_, ?_, fitSuffix_suffix _ _, ?_, fitSuffix_boundary _ _⟩
  · simp [rebuildStatusMessage, hlive, hnot]
  · simp [rebuildStatusMessage, hlive, hnot]
  · have := fitSuffix_length (limit - contHeader.length)
      (st.toolStatusHistory ++ st.currentResponse)
    simp only [List.length_append]
    omega

/-- Closed witness for `rebuildStatus_continuation`: an over-long body at
limit 10 marks the old message and retargets edits to the new one. -/
theorem rebuildStatus_continuation_witness :
    (rebuildStatusMessage 10 ("HH").data ("C").data ("M").data 2
        ⟨some 1, "old".data, "tool1\ntool2\n".data, "resp".data⟩).2 =
        [MsgAction.editMsg 1 ("old".data ++ "M".data),
         MsgAction.createMsg 2
           ("C".data ++ fitSuffix (10 - "C".data.length)
             ("tool1\ntool2\n".data ++ "resp".data))]
    ∧ (rebuildStatusMessage 10 ("HH").data ("C").data ("M").data 2
        ⟨some 1, "old".data, "tool1\ntool2\n".data, "resp".data⟩).1.lastStatusMessageID
      = some 2 := by
  have h := rebuildStatus_continuation 10 ("HH").data ("C").data ("M").data 2 1
    ⟨some 1, "old".data, "tool1\ntool2\n".data, "resp".data⟩ rfl (by decide) (by decide)
  exact ⟨h.1, h.2.1⟩


/-- Soundness of `lastNLIdx`: the reported index is in range and holds a
newline. -/
theorem lastNLIdx_sound (l : List Char) (p : Nat) (h : lastNLIdx l = some p) :
    p < l.length ∧ l[p]? = some '\n' := by
  induction l generalizing p with
  | nil => simp [lastNLIdx] at h
  | cons c t ih =>
    simp only [lastNLIdx] at h
    cases hT : lastNLIdx t with
    | some p' =>
      rw [hT] at h
      simp only [Option.some.injEq] at h
      subst h
      obtain ⟨h1, h2⟩ := ih p' hT
      exact ⟨by simpa using h1, by simpa using h2⟩
    | none =>
      rw [hT] at h
      by_cases hc : c = '\n'
      · subst hc
        rw [if_pos rfl] at h
        obtain rfl : 0 = p := Option.some.inj h
        simp
      · rw [if_neg hc] at h
        cases h

/-- Completeness of `lastNLIdx`: an in-range newline position with no
later newline is the reported index. -/
theorem lastNLIdx_complete (l : List Char) (p : Nat)
    (h : l[p]? = some '\n') (hmax : ∀ q, p < q → l[q]? ≠ some '\n') :
    lastNLIdx l = some p := by
  induction l generalizing p with
  | nil => simp at h
  | cons c t ih =>
    cases p with
    | zero =>
      simp only [List.getElem?_cons_zero, Option.some.injEq] at h
      subst h
      have hT : lastNLIdx t = none := by
        cases hT : lastNLIdx t with
        | none => rfl
        | some p' =>
          obtain ⟨h1, h2⟩ := lastNLIdx_sound t p' hT
          exact absurd (by simpa using h2) (hmax (p' + 1) (Nat.succ_pos p'))
      simp [lastNLIdx, hT]
    | succ q =>
      simp only [List.getElem?_cons_succ] at h
      have hmax' : ∀ r, q < r → t[r]? ≠ some '\n' := by
        intro r hr
        have := hmax (r + 1) (by omega)
        simpa using this
      simp [lastNLIdx, ih q h hmax']

/-- The chosen split point is positive. -/
theorem goSplit_pos (limit : Nat) (s : List Char) (hl : 0 < limit) :
    0 < goSplit limit s := by
  unfold goSplit
  split
  · rename_i p heq
    split
    · exact hl
    · rename_i hp
      omega
  · exact hl

/-- The chosen split point never exceeds the limit. -/
theorem goSplit_le (limit : Nat) (s : List Char) : goSplit limit s ≤ limit := by
  unfold goSplit
  split
  · rename_i p heq
    split
    · exact Nat.le_refl limit
    · have := (lastNLIdx_sound _ p heq).1
      rw [List.length_take] at this
      omega
  · exact Nat.le_refl limit

/-- A non-empty message with fuel left produces at least one chunk. -/
theorem sendChunksGo_ne_nil (limit : Nat) (fuel : Nat) (s : List Char)
    (hfuel : 1 ≤ fuel) (hs : s ≠ []) :
    sendChunksGo limit fuel s ≠ [] := by
  obtain ⟨f, rfl⟩ : ∃ f, fuel = f + 1 := ⟨fuel - 1, by omega⟩
  cases s with
  | nil => exact absurd rfl hs
  | cons c t =>
    simp only [sendChunksGo]
    split
    · simp
    · split <;> simp

/-- Reassembling the chunks, re-inserting each trimmed newline
separator, restores the original message. -/
theorem sendChunksGo_rejoin (limit : Nat) (hl : 0 < limit) :
    ∀ fuel s, s.length ≤ fuel → rejoinChunks (sendChunksGo limit fuel s) = s := by
  intro fuel
  induction fuel with
  | zero =>
    intro s hs
    have : s = [] := List.eq_nil_of_length_eq_zero (by omega)
    subst this
    rfl
  | succ f ih =>
    intro s hs
    cases s with
    | nil => rfl
    | cons c t =>
      simp only [sendChunksGo]
      split
      · simp [rejoinChunks]
      · rename_i hlen
        have hsplit1 : 0 < goSplit limit (c :: t) := goSplit_pos limit (c :: t) hl
        have hsplit2 : goSplit limit (c :: t) ≤ limit := goSplit_le limit (c :: t)
        have hdroplen : ((c :: t).drop (goSplit limit (c :: t))).length
            = (c :: t).length - goSplit limit (c :: t) := List.length_drop _ _
        split
        · rename_i hh
          have hcons := List.eq_cons_of_mem_head? hh
          have hlen2 : ((c :: t).drop (goSplit limit (c :: t))).tail.length ≤ f := by
            have h3 : ((c :: t).drop (goSplit limit (c :: t))).tail.length
                = ((c :: t).drop (goSplit limit (c :: t))).length - 1 := List.length_tail _
            simp only [List.length_cons] at hs hlen hdroplen
            omega
          simp only [rejoinChunks]
          rw [ih _ hlen2]
          conv_rhs => rw [← List.take_append_drop (goSplit limit (c :: t)) (c :: t), hcons]
          simp
        · have hlen2 : ((c :: t).drop (goSplit limit (c :: t))).length ≤ f := by
            simp only [List.length_cons] at hs hlen hdroplen
            omega
          simp only [rejoinChunks]
          rw [ih _ hlen2]
          simp [List.take_append_drop]

/-- Every emitted chunk fits the limit. -/
theorem sendChunksGo_chunk_le (limit : Nat) :
    ∀ fuel s c b, (c, b) ∈ sendChunksGo limit fuel s → c.length ≤ limit := by
  intro fuel
  induction fuel with
  | zero =>
    intro s c b h
    cases s <;> simp [sendChunksGo] at h
  | succ f ih =>
    intro s c b h
    cases s with
    | nil => simp [sendChunksGo] at h
    | cons c0 t =>
      simp only [sendChunksGo] at h
      split at h
      · rename_i hlen
        simp only [List.mem_singleton, Prod.mk.injEq] at h
        rw [h.1]
        omega
      · have hsplit2 : goSplit limit (c0 :: t) ≤ limit := goSplit_le limit (c0 :: t)
        have htake : ((c0 :: t).take (goSplit limit (c0 :: t))).length ≤ limit := by
          rw [List.length_take]
          omega
        split at h <;> rcases List.mem_cons.mp h with heq | hmem
        · rw [Prod.mk.injEq] at heq
          rw [heq.1]
          exact htake
        · exact ih _ c b hmem
        · rw [Prod.mk.injEq] at heq
          rw [heq.1]
          exact htake
        · exact ih _ c b hmem

/-- An over-long message not ending in a newline is split into at least
two chunks. -/
theorem sendChunksGo_two (limit : Nat) (hl : 0 < limit) (fuel : Nat) (s : List Char)
    (hfuel : s.length ≤ fuel) (hlong : limit < s.length) (hlast : s.getLast? ≠ some '\n') :
    2 ≤ (sendChunksGo limit fuel s).length := by
  obtain ⟨f, rfl⟩ : ∃ f, fuel = f + 1 := ⟨fuel - 1, by omega⟩
  cases s with
  | nil => simp at hlong
  | cons c t =>
    simp only [sendChunksGo]
    rw [if_neg (by omega)]
    have hsplit1 : 0 < goSplit limit (c :: t) := goSplit_pos limit (c :: t) hl
    have hsplit2 : goSplit limit (c :: t) ≤ limit := goSplit_le limit (c :: t)
    have hdroplen : ((c :: t).drop (goSplit limit (c :: t))).length
        = (c :: t).length - goSplit limit (c :: t) := List.length_drop _ _
    split
    · rename_i hh
      have hcons := List.eq_cons_of_mem_head? hh
      have htail : ((c :: t).drop (goSplit limit (c :: t))).tail ≠ [] := by
        intro hnil
        have hsingle : (c :: t).drop (goSplit limit (c :: t)) = ['\n'] := by
          rw [hcons, hnil]
        have hlast2 : (c :: t).getLast? = some '\n' := by
          conv_lhs =>
            rw [← List.take_append_drop (goSplit limit (c :: t)) (c :: t), hsingle]
          exact List.getLast?_concat _
        exact hlast hlast2
      have hfuel2 : 1 ≤ f := by
        simp only [List.length_cons] at hfuel hlong
        omega
      have hne := sendChunksGo_ne_nil limit f _ hfuel2 htail
      simp only [List.length_cons]
      have := List.length_pos.mpr hne
      omega
    · have hrest : (c :: t).drop (goSplit limit (c :: t)) ≠ [] := by
        intro hnil
        rw [hnil] at hdroplen
        simp only [List.length_nil, List.length_cons] at hdroplen
        simp only [List.length_cons] at hlong
        omega
      have hfuel2 : 1 ≤ f := by
        simp only [List.length_cons] at hfuel hlong
        omega
      have hne := sendChunksGo_ne_nil limit f _ hfuel2 hrest
      simp only [List.length_cons]
      have := List.length_pos.mpr hne
      omega

/-- With a last newline strictly inside the window, the first chunk ends
exactly at that newline. -/
theorem sendChunksGo_first_chunk (limit : Nat) (fuel : Nat) (s : List Char) (p : Nat)
    (hlong : limit < s.length) (hp0 : 0 < p) (hpl : p < limit)
    (hnl : s[p]? = some '\n') (hmax : ∀ q, p < q → q < limit → s[q]? ≠ some '\n') :
    (sendChunksGo limit (fuel + 1) s).head?.map Prod.fst = some (s.take p) := by
  have hlast : lastNLIdx (s.take limit) = some p := by
    apply lastNLIdx_complete
    · rw [List.getElem?_take, if_pos hpl]
      exact hnl
    · intro q hq
      rw [List.getElem?_take]
      split
      · rename_i hql
        exact hmax q hq hql
      · simp
  have hgs : goSplit limit s = p := by
    unfold goSplit
    rw [hlast]
    simp only []
    rw [if_neg (Nat.pos_iff_ne_zero.mp hp0)]
  cases s with
  | nil => simp at hlong
  | cons c t =>
    simp only [sendChunksGo]
    rw [if_neg (by simp only [List.length_cons] at hlong ⊢; omega), hgs]
    split <;> simp

/-- C9: a diff text longer than the 2000-character chat limit (diff
texts are TrimSpace output, so they do not end in a newline) is sent as
at least two chunks, each of length at most 2000, the split preferring
the last newline boundary before the limit, and reassembling the chunks
with the single trimmed newline separator re-inserted restores the
original text. -/
theorem SendDiscordMessage_chunking (s : List Char)
    (hlong : discordLimit < s.length) (hlast : s.getLast? ≠ some '\n') :
    2 ≤ (SendDiscordMessage s).length
    ∧ (∀ c b, (c, b) ∈ SendDiscordMessage s → c.length ≤ discordLimit)
    ∧ rejoinChunks (SendDiscordMessage s) = s
    ∧ (∀ p, 0 < p → p < discordLimit → s[p]? = some '\n' →
        (∀ q, p < q → q < discordLimit → s[q]? ≠ some '\n') →
        (SendDiscordMessage s).head?.map Prod.fst = some (s.take p)) := by
  have hl : 0 < discordLimit := by decide
  simp only [SendDiscordMessage]
  refine ⟨?_, ?_, ?_, ?_⟩
  · exact sendChunksGo_two discordLimit hl s.length s (Nat.le_refl _) hlong hlast
  · intro c b h
    exact sendChunksGo_chunk_le discordLimit s.length s c b h
  · exact sendChunksGo_rejoin discordLimit hl s.length s (Nat.le_refl _)
  · intro p hp0 hpl hnl hmax
    obtain ⟨f, hf⟩ : ∃ f, s.length = f + 1 := ⟨s.length - 1, by
      have : 0 < s.length := by
        have : 0 < discordLimit := hl
        omega
      omega⟩
    rw [hf]
    exact sendChunksGo_first_chunk discordLimit f s p hlong hp0 hpl hnl hmax

/-- Closed witness for `SendDiscordMessage_chunking`: 2001 characters of
which the last is not a newline. -/
theorem SendDiscordMessage_chunking_witness :
    2 ≤ (SendDiscordMessage (List.replicate 2000 'a' ++ ['b'])).length
    ∧ rejoinChunks (SendDiscordMessage (List.replicate 2000 'a' ++ ['b'])) =
        List.replicate 2000 'a' ++ ['b'] := by
  have h := SendDiscordMessage_chunking (List.replicate 2000 'a' ++ ['b'])
    (by
      simp only [List.length_append, List.length_replicate, List.length_singleton, discordLimit]
      omega)
    (by rw [List.getLast?_concat]; decide)
  exact ⟨h.1, h.2.2.1⟩

end CodeSession
